import Mathlib

/-!
# Verification of the data-label oxml layer (`pptx/oxml/chart/datalabel.py`)

This file gives a shallow embedding of the `CT_DLbl` / `CT_DLbls` element
classes and of the small slice of the generic descriptor machinery
(`xmlchemy` descriptors and attribute codecs) that they use, and proves the
spec's claims about them.

An XML element is modelled as a tag, an optional decoded `val` attribute
(the only attribute relevant to this element family; integer-valued, with
booleans coded as 0/1 exactly as in the XML text), and a list of child
elements in document order.  Operations that mutate the tree are functions
from the element to the updated element; fallible operations return
`Except DLblError`.
-/

/-- Error taxonomy of the spec: `InvalidArgument` for out-of-domain caller
values (e.g. a negative point index rejected by the unsigned-int attribute
codec), `SchemaViolation` for broken structural invariants (a required child
or required attribute that is absent). -/
inductive DLblError : Type where
  | invalidArgument : DLblError
  | schemaViolation : DLblError
deriving DecidableEq, Repr

/-- An XML element: tag name, optional decoded `val` attribute, children in
document order. -/
inductive Elem : Type where
  | mk : String → Option Int → List Elem → Elem

/-- The element's tag name. -/
def Elem.tag : Elem → String
  | .mk t _ _ => t

/-- The element's decoded `val` attribute, when present. -/
def Elem.val : Elem → Option Int
  | .mk _ v _ => v

/-- The element's direct children in document order. -/
def Elem.children : Elem → List Elem
  | .mk _ _ c => c

/-- Replace the element's child list, keeping tag and attributes. -/
def Elem.withChildren : Elem → List Elem → Elem
  | .mk t v _, c => .mk t v c

/-- Modelled from the spec: the boolean attribute codec (XML `"0"`/`"1"`),
reading the `val` attribute of a show/hide flag element. -/
def Elem.boolVal (e : Elem) : Option Bool :=
  match e.val with
  | some 0 => some false
  | some 1 => some true
  | _ => none

/-- `xpath('c:dLbl[c:idx[@val="%d"]]')` match predicate: a `c:dLbl` child
having a `c:idx` child whose `val` attribute equals `i`. -/
def isDLblForPoint (i : Int) (e : Elem) : Bool :=
  e.tag = "c:dLbl" && e.children.any (fun c => c.tag = "c:idx" && c.val == some i)

/-- `xpath('c:tx[c:rich]')` match predicate: a `c:tx` child having a
`c:rich` child. -/
def isTxRich (e : Elem) : Bool :=
  e.tag = "c:tx" && e.children.any (fun c => c.tag = "c:rich")

/-- Modelled from the spec: the Optional-Singleton/Repeatable placement
rule of the cardinality descriptors — insert the new child immediately
before the first existing child whose tag is in the successor-tag list, or
append it as last child when no successor child is present. -/
def insertBeforeFirstSuccessor (succs : List String) (new : Elem) :
    List Elem → List Elem
  | [] => [new]
  | c :: rest =>
    if succs.contains c.tag then new :: c :: rest
    else c :: insertBeforeFirstSuccessor succs new rest

/-- Remove the first child satisfying `p` (lxml `remove` of the first
xpath match). -/
def removeFirst (p : Elem → Bool) : List Elem → List Elem
  | [] => []
  | c :: rest => if p c then rest else c :: removeFirst p rest

/-- Replace the first child satisfying `p` by `new`, used to write back an
in-place mutation of a child node. -/
def replaceFirst (p : Elem → Bool) (new : Elem) : List Elem → List Elem
  | [] => []
  | c :: rest => if p c then new :: rest else c :: replaceFirst p new rest

/-! ## `CT_DLbl` (`<c:dLbl>`) -/

/-- `CT_DLbl._tag_seq`, the canonical child-tag sequence of `c:dLbl`. -/
def CT_DLbl.tag_seq : List String :=
  ["c:idx", "c:layout", "c:tx", "c:numFmt", "c:spPr", "c:txPr",
   "c:dLblPos", "c:showLegendKey", "c:showVal", "c:showCatName",
   "c:showSerName", "c:showPercent", "c:showBubbleSize", "c:separator",
   "c:extLst"]

/-- Successor tags declared for the `tx` descriptor:
`ZeroOrOne('c:tx', successors=_tag_seq[3:])`. -/
def CT_DLbl.tx_successors : List String := CT_DLbl.tag_seq.drop 3

/-- `CT_DLbl.idx_val` — `self.idx.val`: the first `c:idx` child
(`OneAndOnlyOne`, SchemaViolation if absent) and its required `val`
attribute (SchemaViolation if absent). -/
def CT_DLbl.idx_val (dLbl : Elem) : Except DLblError Int :=
  match (dLbl.children.filter (fun c => c.tag = "c:idx")).head? with
  | none => .error .schemaViolation
  | some idxEl =>
    match idxEl.val with
    | none => .error .schemaViolation
    | some v => .ok v

/-- `CT_DLbl.new_dLbl()` — a loose `c:dLbl` with an empty `c:idx` child and
a `c:showLegendKey` child with `val` False. -/
def CT_DLbl.new_dLbl : Elem :=
  .mk "c:dLbl" none [.mk "c:idx" none [], .mk "c:showLegendKey" (some 0) []]

/-- Modelled from the spec: setting the `c:idx` element's required integer
`val` attribute goes through the unsigned-int attribute codec, which
rejects a negative point index (`InvalidArgument`) instead of silently
accepting it. -/
def setIdxVal (i : Int) (idxEl : Elem) : Except DLblError Elem :=
  if i < 0 then .error .invalidArgument
  else .ok (.mk idxEl.tag (some i) idxEl.children)

/-- `new_dLbl` followed by `new_dLbl.idx.val = idx`: build the loose
element, then set the `val` attribute of its `c:idx` child through the
codec. -/
def newDLblForIdx (i : Int) : Except DLblError Elem :=
  match (CT_DLbl.new_dLbl.children.filter (fun c => c.tag = "c:idx")).head? with
  | none => .error .schemaViolation
  | some idxEl =>
    match setIdxVal i idxEl with
    | .error e => .error e
    | .ok idxEl' =>
      .ok (CT_DLbl.new_dLbl.withChildren
        (replaceFirst (fun c => c.tag = "c:idx") idxEl' CT_DLbl.new_dLbl.children))

/-- Modelled from the spec: `tx._remove_strRef()` — remove any
reference-variant (`c:strRef`) children of the `c:tx` slot. -/
def tx_remove_strRef (tx : Elem) : Elem :=
  tx.withChildren (tx.children.filter (fun c => ¬(c.tag = "c:strRef")))

/-- Modelled from the spec: `tx.get_or_add_rich()` — Optional-Singleton
get-or-create for the `c:rich` variant; `c:rich` is last in the `c:tx`
tag sequence, so its successor list is empty and a newly created `c:rich`
is appended as last child. -/
def tx_get_or_add_rich (tx : Elem) : Elem :=
  if tx.children.any (fun c => c.tag = "c:rich") then tx
  else tx.withChildren (tx.children ++ [.mk "c:rich" none []])

/-- `CT_DLbl.get_or_add_tx_rich()` — `tx = self.get_or_add_tx()` (the
Optional-Singleton get-or-create with `tx`'s successor tags), then
`tx._remove_strRef()`, then `tx.get_or_add_rich()`; returns the (mutated)
`c:tx` node together with the updated `c:dLbl`. -/
def CT_DLbl.get_or_add_tx_rich (dLbl : Elem) : Elem × Elem :=
  match (dLbl.children.filter (fun c => c.tag = "c:tx")).head? with
  | some tx =>
    let tx' := tx_get_or_add_rich (tx_remove_strRef tx)
    (tx', dLbl.withChildren (replaceFirst (fun c => c.tag = "c:tx") tx' dLbl.children))
  | none =>
    let tx' := tx_get_or_add_rich (tx_remove_strRef (.mk "c:tx" none []))
    (tx', dLbl.withChildren
      (insertBeforeFirstSuccessor CT_DLbl.tx_successors tx' dLbl.children))

/-- `CT_DLbl.remove_tx_rich()` — remove the first `c:tx[c:rich]` child, or
do nothing when no such child is present. -/
def CT_DLbl.remove_tx_rich (dLbl : Elem) : Elem :=
  if dLbl.children.any isTxRich then
    dLbl.withChildren (removeFirst isTxRich dLbl.children)
  else dLbl

/-! ## `CT_DLbls` (`<c:dLbls>`) -/

/-- `CT_DLbls._tag_seq`, the canonical child-tag sequence of `c:dLbls`. -/
def CT_DLbls.tag_seq : List String :=
  ["c:dLbl", "c:numFmt", "c:spPr", "c:txPr", "c:dLblPos",
   "c:showLegendKey", "c:showVal", "c:showCatName", "c:showSerName",
   "c:showPercent", "c:showBubbleSize", "c:separator",
   "c:showLeaderLines", "c:leaderLines", "c:extLst"]

/-- Successors of the `dLbl` descriptor: `ZeroOrMore('c:dLbl', successors=_tag_seq[1:])`. -/
def CT_DLbls.dLbl_successors : List String := CT_DLbls.tag_seq.drop 1

/-- Successors of the `numFmt` descriptor: `ZeroOrOne('c:numFmt', successors=_tag_seq[2:])`. -/
def CT_DLbls.numFmt_successors : List String := CT_DLbls.tag_seq.drop 2

/-- Successors of the `txPr` descriptor: `ZeroOrOne('c:txPr', successors=_tag_seq[4:])`. -/
def CT_DLbls.txPr_successors : List String := CT_DLbls.tag_seq.drop 4

/-- Successors of the `dLblPos` descriptor: `ZeroOrOne('c:dLblPos', successors=_tag_seq[5:])`. -/
def CT_DLbls.dLblPos_successors : List String := CT_DLbls.tag_seq.drop 5

/-- `CT_DLbls.new_default()` — parse `cls._default_xml`: a `c:dLbls`
element with the six show/hide flag children of the XML literal, `c:showVal`
with `val="1"` and the other five with `val="0"`. -/
def CT_DLbls.new_default : Elem :=
  .mk "c:dLbls" none
    [.mk "c:showLegendKey" (some 0) [],
     .mk "c:showVal" (some 1) [],
     .mk "c:showCatName" (some 0) [],
     .mk "c:showSerName" (some 0) [],
     .mk "c:showPercent" (some 0) [],
     .mk "c:showBubbleSize" (some 0) []]

/-- `CT_DLbls.get_dLbl_for_point(idx)` — the first xpath match
`c:dLbl[c:idx[@val=idx]]`, or `None`; the state is returned unchanged to
make the read-only character of the method a stated fact. -/
def CT_DLbls.get_dLbl_for_point (i : Int) (dLbls : Elem) : Option Elem × Elem :=
  ((dLbls.children.filter (isDLblForPoint i)).head?, dLbls)

/-- The loop of `_insert_dLbl_in_sequence`: walk the `c:dLbl` children in
document order and splice `new` immediately before the first one whose
`idx_val` exceeds `i` (`dLbl.addprevious(new_dLbl)`); `.ok none` when no
`c:dLbl` child exceeds `i`; a failing `idx_val` read propagates. -/
def insertDLblBeforeFirstGreater (i : Int) (new : Elem) :
    List Elem → Except DLblError (Option (List Elem))
  | [] => .ok none
  | c :: rest =>
    if c.tag = "c:dLbl" then
      match CT_DLbl.idx_val c with
      | .error e => .error e
      | .ok v =>
        if i < v then .ok (some (new :: c :: rest))
        else
          match insertDLblBeforeFirstGreater i new rest with
          | .error e => .error e
          | .ok none => .ok none
          | .ok (some rest') => .ok (some (c :: rest'))
    else
      match insertDLblBeforeFirstGreater i new rest with
      | .error e => .error e
      | .ok none => .ok none
      | .ok (some rest') => .ok (some (c :: rest'))

/-- `dLbl.addnext(new_dLbl)` on the last element of `dLbl_lst`: splice
`new` immediately after the last `c:dLbl` child. -/
def insertAfterLastDLbl (new : Elem) : List Elem → List Elem
  | [] => []
  | c :: rest =>
    if rest.any (fun b => b.tag = "c:dLbl") then c :: insertAfterLastDLbl new rest
    else if c.tag = "c:dLbl" then c :: new :: rest
    else c :: insertAfterLastDLbl new rest

/-- `CT_DLbls._insert_dLbl_in_sequence(idx)` — build the new `c:dLbl` with
its `c:idx` set to `idx`, then: insert before the first `c:dLbl` child with
a greater index; else after the last `c:dLbl` child when one exists; else
`self.insert(0, new_dLbl)`.  Returns the new element and the updated
collection. -/
def CT_DLbls.insert_dLbl_in_sequence (i : Int) (dLbls : Elem) :
    Except DLblError (Elem × Elem) :=
  match newDLblForIdx i with
  | .error e => .error e
  | .ok new_dLbl =>
    match insertDLblBeforeFirstGreater i new_dLbl dLbls.children with
    | .error e => .error e
    | .ok (some cs) => .ok (new_dLbl, dLbls.withChildren cs)
    | .ok none =>
      if dLbls.children.any (fun b => b.tag = "c:dLbl") then
        .ok (new_dLbl, dLbls.withChildren (insertAfterLastDLbl new_dLbl dLbls.children))
      else
        .ok (new_dLbl, dLbls.withChildren (new_dLbl :: dLbls.children))

/-- `CT_DLbls.get_or_add_dLbl_for_point(idx)` — return the first xpath
match for the index, else create and insert one in sequence. -/
def CT_DLbls.get_or_add_dLbl_for_point (i : Int) (dLbls : Elem) :
    Except DLblError (Elem × Elem) :=
  match (dLbls.children.filter (isDLblForPoint i)).head? with
  | some m => .ok (m, dLbls)
  | none => CT_DLbls.insert_dLbl_in_sequence i dLbls

/-! ## Derived notions used by the theorems -/

/-- An empty `c:dLbls` collection. -/
def emptyDLbls : Elem := .mk "c:dLbls" none []

/-- The `c:dLbl` element `get_or_add_dLbl_for_point` creates for a
(non-negative) point index `v`. -/
def mkDLbl (v : Int) : Elem :=
  .mk "c:dLbl" none [.mk "c:idx" (some v) [], .mk "c:showLegendKey" (some 0) []]

/-- A `c:dLbls` collection whose children are exactly the data labels for
the point indices `vs`, in that document order. -/
def mkState (vs : List Int) : Elem :=
  .mk "c:dLbls" none (vs.map mkDLbl)

/-- Run a sequence of `get_or_add_dLbl_for_point` calls, threading the
collection state. -/
def runCalls (is : List Int) (s : Elem) : Except DLblError Elem :=
  match is with
  | [] => .ok s
  | i :: rest =>
    match CT_DLbls.get_or_add_dLbl_for_point i s with
    | .error e => .error e
    | .ok (_, s') => runCalls rest s'

/-- The point indices of the `c:dLbl` children, in document order
(children whose index is unreadable are skipped). -/
def pointIdxVals (s : Elem) : List Int :=
  s.children.filterMap (fun c =>
    if c.tag = "c:dLbl" then (CT_DLbl.idx_val c).toOption else none)

/-- Insert `i` into `vs` immediately before the first entry exceeding it
(at the end when none does). -/
def insertSorted (i : Int) : List Int → List Int
  | [] => [i]
  | v :: vs => if i < v then i :: v :: vs else v :: insertSorted i vs

/-- The subsequence of a tag sequence strictly after the first occurrence
of `tag`. -/
def tagsAfter (tag : String) (seq : List String) : List String :=
  (seq.dropWhile (fun t => ¬(t = tag))).drop 1

/-- Number of `c:rich` children of the `c:tx` slot (the first `c:tx`
child), 0 when the slot is empty; at most 1 on any schema-valid
data label. -/
def richCountOfFirstTx (dLbl : Elem) : Nat :=
  match (dLbl.children.filter (fun c => c.tag = "c:tx")).head? with
  | some tx => tx.children.countP (fun c => c.tag = "c:rich")
  | none => 0

/-! ## Basic computation lemmas -/

theorem mkDLbl_tag (v : Int) : (mkDLbl v).tag = "c:dLbl" := rfl

theorem idx_val_mkDLbl (v : Int) : CT_DLbl.idx_val (mkDLbl v) = .ok v := rfl

theorem isDLblForPoint_mkDLbl (i v : Int) :
    isDLblForPoint i (mkDLbl v) = (v == i) := by
  simp [isDLblForPoint, mkDLbl, Elem.tag, Elem.children, Elem.val, List.any]

theorem newDLblForIdx_of_nonneg {i : Int} (h : 0 ≤ i) :
    newDLblForIdx i = .ok (mkDLbl i) := by
  have h' : ¬ i < 0 := not_lt.mpr h
  simp [newDLblForIdx, CT_DLbl.new_dLbl, setIdxVal, replaceFirst, Elem.withChildren,
    Elem.children, Elem.tag, mkDLbl, h', List.filter]

theorem newDLblForIdx_of_neg {i : Int} (h : i < 0) :
    newDLblForIdx i = .error .invalidArgument := by
  simp [newDLblForIdx, CT_DLbl.new_dLbl, setIdxVal, Elem.children, Elem.tag, h,
    List.filter]

/-! ## Claim C7: default collection contents -/

/-- C7: a fresh `new_default` data-label-collection has exactly six direct
children, all show/hide flag elements, with `c:showVal` decoding to true
and the other five flags decoding to false. -/
theorem new_default_six_flags :
    CT_DLbls.new_default.children.length = 6 ∧
    CT_DLbls.new_default.children.map Elem.tag =
      ["c:showLegendKey", "c:showVal", "c:showCatName", "c:showSerName",
       "c:showPercent", "c:showBubbleSize"] ∧
    (∀ c ∈ CT_DLbls.new_default.children,
      Elem.boolVal c = some (decide (c.tag = "c:showVal"))) := by
  refine ⟨rfl, rfl, ?_⟩
  intro c hc
  simp [CT_DLbls.new_default, Elem.children] at hc
  rcases hc with h | h | h | h | h | h <;> subst h <;> rfl

/-! ## Claim C8: successor lists are the tail of the tag sequence -/

/-- C8: every declared successor-tag list on `CT_DLbl` and `CT_DLbls` is
exactly the subsequence of its owner's tag sequence strictly after the
descriptor's child tag. -/
theorem successor_lists_follow_tag_seq :
    CT_DLbl.tx_successors = tagsAfter "c:tx" CT_DLbl.tag_seq ∧
    CT_DLbls.dLbl_successors = tagsAfter "c:dLbl" CT_DLbls.tag_seq ∧
    CT_DLbls.numFmt_successors = tagsAfter "c:numFmt" CT_DLbls.tag_seq ∧
    CT_DLbls.txPr_successors = tagsAfter "c:txPr" CT_DLbls.tag_seq ∧
    CT_DLbls.dLblPos_successors = tagsAfter "c:dLblPos" CT_DLbls.tag_seq := by
  refine ⟨?_, ?_, ?_, ?_, ?_⟩ <;> rfl

/-! ## `insertSorted` lemmas -/

theorem mem_insertSorted (i j : Int) :
    ∀ vs : List Int, j ∈ insertSorted i vs ↔ j = i ∨ j ∈ vs := by
  intro vs
  induction vs with
  | nil => simp [insertSorted]
  | cons v vs ih =>
    by_cases h : i < v
    · simp [insertSorted, h]
    · simp [insertSorted, h, ih]
      tauto

theorem insertSorted_head? (i : Int) (vs : List Int) :
    (insertSorted i vs).head? = some i ∨ (insertSorted i vs).head? = vs.head? := by
  cases vs with
  | nil => left; rfl
  | cons v vs =>
    by_cases h : i < v
    · left; simp [insertSorted, h]
    · right; simp [insertSorted, h]

theorem chain'_insertSorted {i : Int} :
    ∀ {vs : List Int}, List.Chain' (fun a b => a < b) vs → i ∉ vs →
      List.Chain' (fun a b => a < b) (insertSorted i vs) := by
  intro vs
  induction vs with
  | nil => intro _ _; simp [insertSorted]
  | cons v vs ih =>
    intro hch hni
    have hvi : v ≠ i := fun h => hni (h ▸ List.mem_cons_self v vs)
    have hni' : i ∉ vs := fun h => hni (List.mem_cons_of_mem v h)
    rw [List.chain'_cons'] at hch
    by_cases h : i < v
    · rw [insertSorted]
      simp only [if_pos h]
      rw [List.chain'_cons']
      refine ⟨fun y hy => ?_, by rw [List.chain'_cons']; exact hch⟩
      have hyv : v = y := by simpa using hy
      exact hyv ▸ h
    · have hvlt : v < i := lt_of_le_of_ne (not_lt.mp h) hvi
      rw [insertSorted]
      simp only [if_neg h]
      rw [List.chain'_cons']
      refine ⟨?_, ih hch.2 hni'⟩
      intro y hy
      rcases insertSorted_head? i vs with hh | hh
      · rw [hh] at hy
        simp at hy
        exact hy ▸ hvlt
      · rw [hh] at hy
        exact hch.1 y hy

/-! ## Behaviour of `get_or_add_dLbl_for_point` on canonical states -/

theorem filter_isDLblForPoint_map {i : Int} {vs : List Int} (hni : i ∉ vs) :
    (vs.map mkDLbl).filter (isDLblForPoint i) = [] := by
  rw [List.filter_eq_nil_iff]
  intro b hb
  rcases List.mem_map.mp hb with ⟨v, hv, rfl⟩
  rw [isDLblForPoint_mkDLbl]
  simp
  exact fun h => hni (h ▸ hv)

theorem insFG_map (i : Int) :
    ∀ vs : List Int,
      insertDLblBeforeFirstGreater i (mkDLbl i) (vs.map mkDLbl) =
        .ok (if vs.any (fun v => decide (i < v))
             then some ((insertSorted i vs).map mkDLbl) else none) := by
  intro vs
  induction vs with
  | nil => rfl
  | cons v vs ih =>
    by_cases h : i < v
    · simp only [List.map_cons, insertDLblBeforeFirstGreater, mkDLbl_tag,
        idx_val_mkDLbl, if_pos h, List.any_cons, insertSorted]
      simp [h, insertSorted]
    · simp only [List.map_cons, insertDLblBeforeFirstGreater, mkDLbl_tag,
        idx_val_mkDLbl, if_neg h, ih, List.any_cons, insertSorted]
      by_cases hany : vs.any (fun v => decide (i < v))
      · simp [hany, h]
      · simp [hany, h]

theorem insertAfterLastDLbl_map (new : Elem) :
    ∀ vs : List Int, vs ≠ [] →
      insertAfterLastDLbl new (vs.map mkDLbl) = vs.map mkDLbl ++ [new] := by
  intro vs
  induction vs with
  | nil => intro h; exact absurd rfl h
  | cons v vs ih =>
    intro _
    cases vs with
    | nil => rfl
    | cons w ws =>
      have hany : ((w :: ws).map mkDLbl).any (fun b => b.tag = "c:dLbl") = true := by
        simp [mkDLbl_tag]
      simp only [List.map_cons] at hany ⊢
      rw [insertAfterLastDLbl, if_pos hany]
      have := ih (by simp)
      simp only [List.map_cons] at this
      rw [this]
      simp

theorem insertSorted_of_no_greater {i : Int} :
    ∀ {vs : List Int}, (∀ v ∈ vs, ¬ i < v) → insertSorted i vs = vs ++ [i] := by
  intro vs
  induction vs with
  | nil => intro _; rfl
  | cons v vs ih =>
    intro h
    rw [insertSorted, if_neg (h v (List.mem_cons_self v vs))]
    rw [ih (fun w hw => h w (List.mem_cons_of_mem v hw))]
    rfl

/-! ## Unfolding lemmas for the two mutating operations -/

theorem getOrAdd_of_found {i : Int} {s m : Elem}
    (h : (s.children.filter (isDLblForPoint i)).head? = some m) :
    CT_DLbls.get_or_add_dLbl_for_point i s = .ok (m, s) := by
  simp only [CT_DLbls.get_or_add_dLbl_for_point, h]

theorem getOrAdd_of_not_found {i : Int} {s : Elem}
    (h : (s.children.filter (isDLblForPoint i)).head? = none) :
    CT_DLbls.get_or_add_dLbl_for_point i s =
      CT_DLbls.insert_dLbl_in_sequence i s := by
  simp only [CT_DLbls.get_or_add_dLbl_for_point, h]

theorem insert_seq_of_new_error {i : Int} {s : Elem} {e : DLblError}
    (hnd : newDLblForIdx i = .error e) :
    CT_DLbls.insert_dLbl_in_sequence i s = .error e := by
  simp only [CT_DLbls.insert_dLbl_in_sequence, hnd]

theorem insert_seq_of_some {i : Int} {s nd : Elem} {cs : List Elem}
    (hnd : newDLblForIdx i = .ok nd)
    (hins : insertDLblBeforeFirstGreater i nd s.children = .ok (some cs)) :
    CT_DLbls.insert_dLbl_in_sequence i s = .ok (nd, s.withChildren cs) := by
  simp only [CT_DLbls.insert_dLbl_in_sequence, hnd, hins]

theorem insert_seq_of_none_last {i : Int} {s nd : Elem}
    (hnd : newDLblForIdx i = .ok nd)
    (hins : insertDLblBeforeFirstGreater i nd s.children = .ok none)
    (hany : s.children.any (fun b => b.tag = "c:dLbl") = true) :
    CT_DLbls.insert_dLbl_in_sequence i s =
      .ok (nd, s.withChildren (insertAfterLastDLbl nd s.children)) := by
  simp only [CT_DLbls.insert_dLbl_in_sequence, hnd, hins, hany, if_true]

theorem insert_seq_of_none_empty {i : Int} {s nd : Elem}
    (hnd : newDLblForIdx i = .ok nd)
    (hins : insertDLblBeforeFirstGreater i nd s.children = .ok none)
    (hany : s.children.any (fun b => b.tag = "c:dLbl") = false) :
    CT_DLbls.insert_dLbl_in_sequence i s =
      .ok (nd, s.withChildren (nd :: s.children)) := by
  simp only [CT_DLbls.insert_dLbl_in_sequence, hnd, hins, hany,
    Bool.false_eq_true, if_false]

/-- One `get_or_add_dLbl_for_point` call on a canonical collection of data
labels for the indices `vs`: with a fresh non-negative index, it returns
the new label and splices it before the first greater index. -/
theorem getOrAdd_mkState {i : Int} {vs : List Int} (h0 : 0 ≤ i) (hni : i ∉ vs) :
    CT_DLbls.get_or_add_dLbl_for_point i (mkState vs) =
      .ok (mkDLbl i, mkState (insertSorted i vs)) := by
  have hchildren : (mkState vs).children = vs.map mkDLbl := rfl
  rw [getOrAdd_of_not_found (by rw [hchildren, filter_isDLblForPoint_map hni]; rfl)]
  by_cases hany : vs.any (fun v => decide (i < v))
  · rw [insert_seq_of_some (newDLblForIdx_of_nonneg h0)
      (by rw [hchildren, insFG_map, if_pos hany])]
    rfl
  · have hng : ∀ v ∈ vs, ¬ i < v := by
      intro v hv hlt
      exact hany (List.any_eq_true.mpr ⟨v, hv, by simpa using hlt⟩)
    have hins : insertDLblBeforeFirstGreater i (mkDLbl i) (mkState vs).children
        = .ok none := by rw [hchildren, insFG_map, if_neg hany]
    cases vs with
    | nil =>
      rw [insert_seq_of_none_empty (newDLblForIdx_of_nonneg h0) hins rfl]
      rfl
    | cons w ws =>
      have hd : (mkState (w :: ws)).children.any (fun b => b.tag = "c:dLbl")
          = true := by
        rw [hchildren]; simp [mkDLbl_tag]
      rw [insert_seq_of_none_last (newDLblForIdx_of_nonneg h0) hins hd]
      rw [mkState, Elem.withChildren, Elem.children,
        insertAfterLastDLbl_map _ _ (by simp)]
      rw [insertSorted_of_no_greater hng]
      simp [mkState]

/-! ## Claim C1: ascending order invariant -/

theorem pointIdxVals_mkState (vs : List Int) : pointIdxVals (mkState vs) = vs := by
  induction vs with
  | nil => rfl
  | cons v vs ih =>
    show v :: pointIdxVals (mkState vs) = v :: vs
    rw [ih]

theorem runCalls_mkState :
    ∀ (is : List Int) (vs : List Int),
      List.Chain' (fun a b => a < b) vs →
      (∀ i ∈ is, 0 ≤ i) → (∀ i ∈ is, i ∉ vs) → is.Pairwise (fun a b => a ≠ b) →
      ∃ ws, runCalls is (mkState vs) = .ok (mkState ws) ∧
        List.Chain' (fun a b => a < b) ws ∧
        (∀ j ∈ ws, j ∈ vs ∨ j ∈ is) := by
  intro is
  induction is with
  | nil =>
    intro vs hch _ _ _
    exact ⟨vs, rfl, hch, fun j hj => Or.inl hj⟩
  | cons i rest ih =>
    intro vs hch hnn hnm hpw
    have h0 : 0 ≤ i := hnn i (List.mem_cons_self i rest)
    have hni : i ∉ vs := hnm i (List.mem_cons_self i rest)
    have hstep := getOrAdd_mkState h0 hni
    have hrec := ih (insertSorted i vs)
      (chain'_insertSorted hch hni)
      (fun j hj => hnn j (List.mem_cons_of_mem i hj))
      (fun j hj hmem => by
        rcases (mem_insertSorted i j vs).mp hmem with rfl | hjv
        · exact (List.pairwise_cons.mp hpw).1 j hj rfl
        · exact hnm j (List.mem_cons_of_mem i hj) hjv)
      (List.pairwise_cons.mp hpw).2
    rcases hrec with ⟨ws, hrun, hchw, hmemw⟩
    refine ⟨ws, ?_, hchw, ?_⟩
    · rw [runCalls, hstep]
      exact hrun
    · intro j hj
      rcases hmemw j hj with hjv | hjr
      · rcases (mem_insertSorted i j vs).mp hjv with rfl | hjv'
        · exact Or.inr (List.mem_cons_self j rest)
        · exact Or.inl hjv'
      · exact Or.inr (List.mem_cons_of_mem i hjr)

/-- C1: starting from an empty collection, any sequence of
`get_or_add_dLbl_for_point` calls with pairwise-distinct non-negative
indices succeeds and leaves the `c:dLbl` children in strictly ascending
point-index order in document order. -/
theorem dLbls_ascending_order_invariant (is : List Int)
    (hdist : is.Pairwise (fun a b => a ≠ b)) (hnn : ∀ i ∈ is, 0 ≤ i) :
    ∃ s, runCalls is emptyDLbls = .ok s ∧
      List.Chain' (fun a b => a < b) (pointIdxVals s) := by
  have hempty : emptyDLbls = mkState [] := rfl
  rcases runCalls_mkState is [] List.chain'_nil hnn (by simp) hdist with
    ⟨ws, hrun, hchw, _⟩
  refine ⟨mkState ws, by rw [hempty]; exact hrun, ?_⟩
  rw [pointIdxVals_mkState]
  exact hchw

/-- C1 witness: the concrete scenario of the spec — calls for indices 3,
1, 2 on an empty collection. -/
theorem dLbls_ascending_order_invariant_witness :
    ([3, 1, 2] : List Int).Pairwise (fun a b => a ≠ b) ∧
    (∀ i ∈ ([3, 1, 2] : List Int), 0 ≤ i) ∧
    ∃ s, runCalls [3, 1, 2] emptyDLbls = .ok s ∧
      List.Chain' (fun a b => a < b) (pointIdxVals s) :=
  ⟨by decide, by decide,
    dLbls_ascending_order_invariant [3, 1, 2] (by decide) (by decide)⟩

/-! ## Decomposition of the insertion paths on arbitrary states -/

theorem insert_seq_of_ins_error {i : Int} {s nd : Elem} {e : DLblError}
    (hnd : newDLblForIdx i = .ok nd)
    (hins : insertDLblBeforeFirstGreater i nd s.children = .error e) :
    CT_DLbls.insert_dLbl_in_sequence i s = .error e := by
  simp only [CT_DLbls.insert_dLbl_in_sequence, hnd, hins]

theorem insFG_some_decomp {i : Int} {new : Elem} :
    ∀ {cs cs' : List Elem},
      insertDLblBeforeFirstGreater i new cs = .ok (some cs') →
      ∃ l c rest w, cs = l ++ c :: rest ∧ cs' = l ++ new :: c :: rest ∧
        c.tag = "c:dLbl" ∧ CT_DLbl.idx_val c = .ok w ∧ i < w ∧
        (∀ b ∈ l, b.tag = "c:dLbl" →
          ∃ w', CT_DLbl.idx_val b = .ok w' ∧ w' ≤ i) := by
  intro cs
  induction cs with
  | nil => intro cs' h; exact absurd h (by simp [insertDLblBeforeFirstGreater])
  | cons c rest ih =>
    intro cs' h
    rw [insertDLblBeforeFirstGreater] at h
    by_cases hc : c.tag = "c:dLbl"
    · rw [if_pos hc] at h
      cases hv : CT_DLbl.idx_val c with
      | error e => rw [hv] at h; exact absurd h (by simp)
      | ok v =>
        simp only [hv] at h
        by_cases hlt : i < v
        · rw [if_pos hlt] at h
          have hcs' : cs' = new :: c :: rest := by
            simpa using h.symm
          exact ⟨[], c, rest, v, rfl, by simp [hcs'], hc, hv, hlt, by simp⟩
        · rw [if_neg hlt] at h
          cases hr : insertDLblBeforeFirstGreater i new rest with
          | error e => rw [hr] at h; exact absurd h (by simp)
          | ok o =>
            rw [hr] at h
            cases o with
            | none => exact absurd h (by simp)
            | some rest' =>
              have hcs' : cs' = c :: rest' := by simpa using h.symm
              rcases ih hr with ⟨l, c₀, r₀, w, hsplit, hres, hdl, hidx, hwlt, hall⟩
              refine ⟨c :: l, c₀, r₀, w, by simp [hsplit],
                by simp [hcs', hres], hdl, hidx, hwlt, ?_⟩
              intro b hb hbtag
              rcases List.mem_cons.mp hb with rfl | hbl
              · exact ⟨v, hv, not_lt.mp hlt⟩
              · exact hall b hbl hbtag
    · rw [if_neg hc] at h
      cases hr : insertDLblBeforeFirstGreater i new rest with
      | error e => rw [hr] at h; exact absurd h (by simp)
      | ok o =>
        rw [hr] at h
        cases o with
        | none => exact absurd h (by simp)
        | some rest' =>
          have hcs' : cs' = c :: rest' := by simpa using h.symm
          rcases ih hr with ⟨l, c₀, r₀, w, hsplit, hres, hdl, hidx, hwlt, hall⟩
          refine ⟨c :: l, c₀, r₀, w, by simp [hsplit],
            by simp [hcs', hres], hdl, hidx, hwlt, ?_⟩
          intro b hb hbtag
          rcases List.mem_cons.mp hb with rfl | hbl
          · exact absurd hbtag hc
          · exact hall b hbl hbtag

theorem insFG_none_all_le {i : Int} {new : Elem} :
    ∀ {cs : List Elem},
      insertDLblBeforeFirstGreater i new cs = .ok none →
      ∀ b ∈ cs, b.tag = "c:dLbl" →
        ∃ w, CT_DLbl.idx_val b = .ok w ∧ w ≤ i := by
  intro cs
  induction cs with
  | nil => intro _ b hb; exact absurd hb (by simp)
  | cons c rest ih =>
    intro h b hb hbtag
    rw [insertDLblBeforeFirstGreater] at h
    by_cases hc : c.tag = "c:dLbl"
    · rw [if_pos hc] at h
      cases hv : CT_DLbl.idx_val c with
      | error e => rw [hv] at h; exact absurd h (by simp)
      | ok v =>
        simp only [hv] at h
        by_cases hlt : i < v
        · rw [if_pos hlt] at h; exact absurd h (by simp)
        · rw [if_neg hlt] at h
          cases hr : insertDLblBeforeFirstGreater i new rest with
          | error e => rw [hr] at h; exact absurd h (by simp)
          | ok o =>
            rw [hr] at h
            cases o with
            | some rest' => exact absurd h (by simp)
            | none =>
              rcases List.mem_cons.mp hb with rfl | hbl
              · exact ⟨v, hv, not_lt.mp hlt⟩
              · exact ih hr b hbl hbtag
    · rw [if_neg hc] at h
      cases hr : insertDLblBeforeFirstGreater i new rest with
      | error e => rw [hr] at h; exact absurd h (by simp)
      | ok o =>
        rw [hr] at h
        cases o with
        | some rest' => exact absurd h (by simp)
        | none =>
          rcases List.mem_cons.mp hb with rfl | hbl
          · exact absurd hbtag hc
          · exact ih hr b hbl hbtag

theorem insertAfterLastDLbl_decomp (new : Elem) :
    ∀ {cs : List Elem}, cs.any (fun b => b.tag = "c:dLbl") = true →
      ∃ l c rest, cs = l ++ c :: rest ∧
        insertAfterLastDLbl new cs = l ++ c :: new :: rest ∧
        c.tag = "c:dLbl" ∧ ∀ b ∈ rest, ¬(b.tag = "c:dLbl") := by
  intro cs
  induction cs with
  | nil => intro h; exact absurd h (by simp)
  | cons c rest ih =>
    intro h
    by_cases hr : rest.any (fun b => b.tag = "c:dLbl") = true
    · rcases ih hr with ⟨l, c₀, r₀, hsplit, hres, hdl, hnone⟩
      refine ⟨c :: l, c₀, r₀, by simp [hsplit], ?_, hdl, hnone⟩
      rw [insertAfterLastDLbl, if_pos hr, hres]
      simp
    · have hc : c.tag = "c:dLbl" := by
        rcases List.any_eq_true.mp h with ⟨b, hb, hbtag⟩
        rcases List.mem_cons.mp hb with rfl | hbl
        · exact of_decide_eq_true hbtag
        · exact absurd (List.any_eq_true.mpr ⟨b, hbl, hbtag⟩) hr
      refine ⟨[], c, rest, rfl, ?_, hc, ?_⟩
      · rw [insertAfterLastDLbl, if_neg hr, if_pos hc]
        simp
      · intro b hb hbtag
        exact hr (List.any_eq_true.mpr ⟨b, hb, by simp [hbtag]⟩)

theorem newDLblForIdx_ok_inv {i : Int} {nd : Elem}
    (h : newDLblForIdx i = .ok nd) : 0 ≤ i ∧ nd = mkDLbl i := by
  by_cases hneg : i < 0
  · rw [newDLblForIdx_of_neg hneg] at h
    exact absurd h (by simp)
  · have h0 : 0 ≤ i := not_lt.mp hneg
    rw [newDLblForIdx_of_nonneg h0] at h
    exact ⟨h0, by simpa using h.symm⟩

/-- Any successful run of `_insert_dLbl_in_sequence` splices the freshly
built data label for `i` at a single position in the child list. -/
theorem insert_seq_decomp {i : Int} {s e s' : Elem}
    (h : CT_DLbls.insert_dLbl_in_sequence i s = .ok (e, s')) :
    0 ≤ i ∧ e = mkDLbl i ∧
      ∃ l r, s.children = l ++ r ∧ s'.children = l ++ e :: r := by
  cases hnd : newDLblForIdx i with
  | error err =>
    rw [insert_seq_of_new_error hnd] at h
    exact absurd h (by simp)
  | ok nd =>
    rcases newDLblForIdx_ok_inv hnd with ⟨h0, rfl⟩
    refine ⟨h0, ?_, ?_⟩
    · cases hins : insertDLblBeforeFirstGreater i (mkDLbl i) s.children with
      | error err =>
        rw [insert_seq_of_ins_error hnd hins] at h
        exact absurd h (by simp)
      | ok o =>
        cases o with
        | some cs =>
          rw [insert_seq_of_some hnd hins] at h
          have he : mkDLbl i = e ∧ s.withChildren cs = s' := by simpa using h
          exact he.1.symm
        | none =>
          cases hany : s.children.any (fun b => b.tag = "c:dLbl") with
          | true =>
            rw [insert_seq_of_none_last hnd hins hany] at h
            exact (by simpa using h.symm : _ ∧ _).1
          | false =>
            rw [insert_seq_of_none_empty hnd hins hany] at h
            exact (by simpa using h.symm : _ ∧ _).1
    · cases hins : insertDLblBeforeFirstGreater i (mkDLbl i) s.children with
      | error err =>
        rw [insert_seq_of_ins_error hnd hins] at h
        exact absurd h (by simp)
      | ok o =>
        cases o with
        | some cs =>
          rw [insert_seq_of_some hnd hins] at h
          have he : mkDLbl i = e ∧ s.withChildren cs = s' := by simpa using h
          rcases insFG_some_decomp hins with
            ⟨l, c, rest, w, hsplit, hres, _, _, _, _⟩
          refine ⟨l, c :: rest, hsplit, ?_⟩
          rw [← he.2, ← he.1]
          cases s
          simpa [Elem.withChildren, Elem.children] using hres
        | none =>
          cases hany : s.children.any (fun b => b.tag = "c:dLbl") with
          | true =>
            rw [insert_seq_of_none_last hnd hins hany] at h
            have he : mkDLbl i = e ∧
                s.withChildren (insertAfterLastDLbl (mkDLbl i) s.children) = s' := by
              simpa using h
            rcases insertAfterLastDLbl_decomp (mkDLbl i) hany with
              ⟨l, c, rest, hsplit, hres, _, _⟩
            refine ⟨l ++ [c], rest, by simp [hsplit], ?_⟩
            rw [← he.2, ← he.1]
            cases s
            simp only [Elem.withChildren, Elem.children] at hres ⊢
            rw [hres]
            simp
          | false =>
            rw [insert_seq_of_none_empty hnd hins hany] at h
            have he : mkDLbl i = e ∧ s.withChildren (mkDLbl i :: s.children) = s' := by
              simpa using h
            refine ⟨[], s.children, rfl, ?_⟩
            rw [← he.2, ← he.1]
            cases s
            simp [Elem.withChildren, Elem.children]

/-! ## Claim C2: idempotent get-or-add, no duplicate keys -/

/-- C2: starting from a state with at most one data label for index `i`
(any schema-valid state), a successful `get_or_add_dLbl_for_point(i)` call
leaves exactly one `c:dLbl` child with point-index `i`; the returned
element is that child (the first match), and calling again returns the
same element and leaves the tree unchanged. -/
theorem get_or_add_dLbl_idempotent (i : Int) (s e s' : Elem)
    (hcount : s.children.countP (isDLblForPoint i) ≤ 1)
    (hcall : CT_DLbls.get_or_add_dLbl_for_point i s = .ok (e, s')) :
    s'.children.countP (isDLblForPoint i) = 1 ∧
    (s'.children.filter (isDLblForPoint i)).head? = some e ∧
    CT_DLbls.get_or_add_dLbl_for_point i s' = .ok (e, s') := by
  cases hfind : (s.children.filter (isDLblForPoint i)).head? with
  | some m =>
    rw [getOrAdd_of_found hfind] at hcall
    have he : m = e ∧ s = s' := by simpa using hcall
    rcases he with ⟨rfl, rfl⟩
    have hne : s.children.filter (isDLblForPoint i) ≠ [] := by
      intro hnil
      rw [hnil] at hfind
      exact absurd hfind (by simp)
    have hpos : 1 ≤ s.children.countP (isDLblForPoint i) := by
      rw [List.countP_eq_length_filter]
      exact Nat.one_le_iff_ne_zero.mpr
        (fun hz => hne (List.eq_nil_of_length_eq_zero hz))
    exact ⟨le_antisymm hcount hpos, hfind, getOrAdd_of_found hfind⟩
  | none =>
    rw [getOrAdd_of_not_found hfind] at hcall
    rcases insert_seq_decomp hcall with ⟨_, rfl, l, r, hsplit, hres⟩
    have hnil : s.children.filter (isDLblForPoint i) = [] :=
      List.head?_eq_none_iff.mp hfind
    have hnomatch : ∀ b ∈ s.children, ¬(isDLblForPoint i b = true) :=
      List.filter_eq_nil_iff.mp hnil
    have hmk : isDLblForPoint i (mkDLbl i) = true := by
      rw [isDLblForPoint_mkDLbl]; simp
    have hlr : ∀ b ∈ l ++ r, ¬(isDLblForPoint i b = true) := by
      rw [← hsplit]; exact hnomatch
    have hl : ∀ b ∈ l, ¬(isDLblForPoint i b = true) :=
      fun b hb => hlr b (List.mem_append.mpr (Or.inl hb))
    have hr : ∀ b ∈ r, ¬(isDLblForPoint i b = true) :=
      fun b hb => hlr b (List.mem_append.mpr (Or.inr hb))
    have hfl : l.filter (isDLblForPoint i) = [] := List.filter_eq_nil_iff.mpr hl
    have hfr : r.filter (isDLblForPoint i) = [] := List.filter_eq_nil_iff.mpr hr
    have hfilter : s'.children.filter (isDLblForPoint i) = [mkDLbl i] := by
      rw [hres, List.filter_append, hfl, List.filter_cons, hfr]
      simp [hmk]
    refine ⟨?_, ?_, ?_⟩
    · rw [List.countP_eq_length_filter, hfilter]
      rfl
    · rw [hfilter]
      rfl
    · have : (s'.children.filter (isDLblForPoint i)).head? = some (mkDLbl i) := by
        rw [hfilter]; rfl
      exact getOrAdd_of_found this

/-- C2 witness: a concrete call on the empty collection, followed by the
guaranteed idempotent repeat on the resulting one-label collection. -/
theorem get_or_add_dLbl_idempotent_witness :
    emptyDLbls.children.countP (isDLblForPoint 0) ≤ 1 ∧
    ((Elem.mk "c:dLbls" none [mkDLbl 0]).children.countP (isDLblForPoint 0) = 1 ∧
     ((Elem.mk "c:dLbls" none [mkDLbl 0]).children.filter
        (isDLblForPoint 0)).head? = some (mkDLbl 0) ∧
     CT_DLbls.get_or_add_dLbl_for_point 0 (Elem.mk "c:dLbls" none [mkDLbl 0]) =
       .ok (mkDLbl 0, Elem.mk "c:dLbls" none [mkDLbl 0])) :=
  ⟨by decide,
   get_or_add_dLbl_idempotent 0 emptyDLbls (mkDLbl 0)
     (Elem.mk "c:dLbls" none [mkDLbl 0]) (by decide) rfl⟩

/-! ## Claim C3: insertion position among existing labels -/

theorem Elem.children_withChildren (s : Elem) (cs : List Elem) :
    (s.withChildren cs).children = cs := by
  cases s; rfl

/-- C3: when `get_or_add_dLbl_for_point(i)` creates a new label and at
least one `c:dLbl` child exists, the new element goes immediately before
the first `c:dLbl` child whose index exceeds `i` (first disjunct), or —
when no child's index exceeds `i` — immediately after the last `c:dLbl`
child (second disjunct). -/
theorem dLbl_insert_position (i : Int) (s e s' : Elem)
    (hnomatch : ∀ b ∈ s.children, isDLblForPoint i b = false)
    (hdLbl : s.children.any (fun b => b.tag = "c:dLbl") = true)
    (hcall : CT_DLbls.get_or_add_dLbl_for_point i s = .ok (e, s')) :
    e = mkDLbl i ∧
    ((∃ l c rest w, s.children = l ++ c :: rest ∧
        s'.children = l ++ e :: c :: rest ∧
        c.tag = "c:dLbl" ∧ CT_DLbl.idx_val c = .ok w ∧ i < w ∧
        (∀ b ∈ l, b.tag = "c:dLbl" →
          ∃ w', CT_DLbl.idx_val b = .ok w' ∧ w' ≤ i)) ∨
     (∃ l c rest, s.children = l ++ c :: rest ∧
        s'.children = l ++ c :: e :: rest ∧
        c.tag = "c:dLbl" ∧ (∀ b ∈ rest, ¬(b.tag = "c:dLbl")) ∧
        (∀ b ∈ s.children, b.tag = "c:dLbl" →
          ∃ w, CT_DLbl.idx_val b = .ok w ∧ w ≤ i))) := by
  have hnil : s.children.filter (isDLblForPoint i) = [] :=
    List.filter_eq_nil_iff.mpr (fun b hb => by simp [hnomatch b hb])
  have hfind : (s.children.filter (isDLblForPoint i)).head? = none := by
    rw [hnil]; rfl
  rw [getOrAdd_of_not_found hfind] at hcall
  cases hnd : newDLblForIdx i with
  | error err =>
    rw [insert_seq_of_new_error hnd] at hcall
    exact absurd hcall (by simp)
  | ok nd =>
    rcases newDLblForIdx_ok_inv hnd with ⟨h0, rfl⟩
    cases hins : insertDLblBeforeFirstGreater i (mkDLbl i) s.children with
    | error err =>
      rw [insert_seq_of_ins_error hnd hins] at hcall
      exact absurd hcall (by simp)
    | ok o =>
      cases o with
      | some cs =>
        rw [insert_seq_of_some hnd hins] at hcall
        have he : mkDLbl i = e ∧ s.withChildren cs = s' := by simpa using hcall
        rcases insFG_some_decomp hins with
          ⟨l, c, rest, w, hsplit, hres, hdl, hidx, hwlt, hall⟩
        refine ⟨he.1.symm, Or.inl ⟨l, c, rest, w, hsplit, ?_, hdl, hidx, hwlt, hall⟩⟩
        rw [← he.2, Elem.children_withChildren, hres, ← he.1]
      | none =>
        rw [insert_seq_of_none_last hnd hins hdLbl] at hcall
        have he : mkDLbl i = e ∧
            s.withChildren (insertAfterLastDLbl (mkDLbl i) s.children) = s' := by
          simpa using hcall
        rcases insertAfterLastDLbl_decomp (mkDLbl i) hdLbl with
          ⟨l, c, rest, hsplit, hres, hdl, hnodl⟩
        refine ⟨he.1.symm, Or.inr ⟨l, c, rest, hsplit, ?_, hdl, hnodl,
          insFG_none_all_le hins⟩⟩
        rw [← he.2, Elem.children_withChildren, hres, ← he.1]

/-- C3 witness: creating the label for index 2 among existing labels for
indices 1 and 3 places it between the two. -/
theorem dLbl_insert_position_witness :
    mkDLbl 2 = mkDLbl 2 ∧
    ((∃ l c rest w, (mkState [1, 3]).children = l ++ c :: rest ∧
        (mkState [1, 2, 3]).children = l ++ mkDLbl 2 :: c :: rest ∧
        c.tag = "c:dLbl" ∧ CT_DLbl.idx_val c = .ok w ∧ (2 : Int) < w ∧
        (∀ b ∈ l, b.tag = "c:dLbl" →
          ∃ w', CT_DLbl.idx_val b = .ok w' ∧ w' ≤ (2 : Int))) ∨
     (∃ l c rest, (mkState [1, 3]).children = l ++ c :: rest ∧
        (mkState [1, 2, 3]).children = l ++ c :: mkDLbl 2 :: rest ∧
        c.tag = "c:dLbl" ∧ (∀ b ∈ rest, ¬(b.tag = "c:dLbl")) ∧
        (∀ b ∈ (mkState [1, 3]).children, b.tag = "c:dLbl" →
          ∃ w, CT_DLbl.idx_val b = .ok w ∧ w ≤ (2 : Int)))) :=
  dLbl_insert_position 2 (mkState [1, 3]) (mkDLbl 2) (mkState [1, 2, 3])
    (by decide) (by decide) rfl

/-! ## Claim C4: first label placed by the successor-tag rule -/

theorem insFG_of_no_dLbl {i : Int} {new : Elem} :
    ∀ {cs : List Elem}, (∀ b ∈ cs, ¬(b.tag = "c:dLbl")) →
      insertDLblBeforeFirstGreater i new cs = .ok none := by
  intro cs
  induction cs with
  | nil => intro _; rfl
  | cons c rest ih =>
    intro h
    rw [insertDLblBeforeFirstGreater,
      if_neg (h c (List.mem_cons_self c rest)),
      ih (fun b hb => h b (List.mem_cons_of_mem c hb))]

theorem insertBeforeFirstSuccessor_eq_cons {new : Elem} {cs : List Elem}
    (hnone : ∀ b ∈ cs, ¬(b.tag = "c:dLbl"))
    (hlegal : ∀ b ∈ cs, b.tag ∈ CT_DLbls.tag_seq) :
    insertBeforeFirstSuccessor CT_DLbls.dLbl_successors new cs = new :: cs := by
  cases cs with
  | nil => rfl
  | cons c rest =>
    have hmem : c.tag ∈ CT_DLbls.dLbl_successors := by
      have h1 := hlegal c (List.mem_cons_self c rest)
      have h2 := hnone c (List.mem_cons_self c rest)
      have hseq : CT_DLbls.tag_seq = "c:dLbl" :: CT_DLbls.dLbl_successors := rfl
      rw [hseq] at h1
      rcases List.mem_cons.mp h1 with h | h
      · exact absurd h h2
      · exact h
    rw [insertBeforeFirstSuccessor, if_pos (List.elem_eq_true_of_mem hmem)]

/-- C4: when the collection has no `c:dLbl` children at all (and its
children are schema-legal tags), the new label lands exactly where the
Optional-Singleton/Repeatable placement rule puts it: immediately before
the first successor-tag child, or appended when none is present. -/
theorem dLbl_empty_insert_uses_successor_rule (i : Int) (s : Elem)
    (h0 : 0 ≤ i)
    (hnone : ∀ b ∈ s.children, ¬(b.tag = "c:dLbl"))
    (hlegal : ∀ b ∈ s.children, b.tag ∈ CT_DLbls.tag_seq) :
    CT_DLbls.get_or_add_dLbl_for_point i s =
      .ok (mkDLbl i, s.withChildren
        (insertBeforeFirstSuccessor CT_DLbls.dLbl_successors (mkDLbl i)
          s.children)) := by
  have hnomatch : ∀ b ∈ s.children, ¬(isDLblForPoint i b = true) := by
    intro b hb hmatch
    rw [isDLblForPoint] at hmatch
    simp at hmatch
    exact hnone b hb hmatch.1
  have hfind : (s.children.filter (isDLblForPoint i)).head? = none := by
    rw [List.filter_eq_nil_iff.mpr hnomatch]; rfl
  have hany : s.children.any (fun b => b.tag = "c:dLbl") = false := by
    rw [List.any_eq_false]
    intro b hb
    simpa using hnone b hb
  rw [getOrAdd_of_not_found hfind,
    insert_seq_of_none_empty (newDLblForIdx_of_nonneg h0)
      (insFG_of_no_dLbl hnone) hany,
    insertBeforeFirstSuccessor_eq_cons hnone hlegal]

/-- C4 witness: a collection holding only a `c:numFmt` child receives its
first data label in front of that successor-tag child. -/
theorem dLbl_empty_insert_uses_successor_rule_witness :
    (0 : Int) ≤ 0 ∧
    (∀ b ∈ (Elem.mk "c:dLbls" none [Elem.mk "c:numFmt" none []]).children,
      ¬(b.tag = "c:dLbl")) ∧
    (∀ b ∈ (Elem.mk "c:dLbls" none [Elem.mk "c:numFmt" none []]).children,
      b.tag ∈ CT_DLbls.tag_seq) ∧
    CT_DLbls.get_or_add_dLbl_for_point 0
        (Elem.mk "c:dLbls" none [Elem.mk "c:numFmt" none []]) =
      .ok (mkDLbl 0, (Elem.mk "c:dLbls" none
          [Elem.mk "c:numFmt" none []]).withChildren
        (insertBeforeFirstSuccessor CT_DLbls.dLbl_successors (mkDLbl 0)
          (Elem.mk "c:dLbls" none [Elem.mk "c:numFmt" none []]).children)) :=
  ⟨by decide, by decide, by decide,
   dLbl_empty_insert_uses_successor_rule 0
     (Elem.mk "c:dLbls" none [Elem.mk "c:numFmt" none []])
     (by decide) (by decide) (by decide)⟩

/-! ## Claim C5: negative index is rejected -/

/-- C5: on any collection whose stored point indices are non-negative (as
the unsigned-int codec guarantees for every reachable document), calling
`get_or_add_dLbl_for_point` with a negative index fails with
`InvalidArgument` instead of mutating the tree or returning a child. -/
theorem negative_index_rejected (i : Int) (s : Elem) (hneg : i < 0)
    (hval : ∀ c ∈ s.children, ∀ d ∈ c.children, d.tag = "c:idx" →
      ∀ v, d.val = some v → 0 ≤ v) :
    CT_DLbls.get_or_add_dLbl_for_point i s = .error .invalidArgument := by
  have hnomatch : ∀ b ∈ s.children, ¬(isDLblForPoint i b = true) := by
    intro b hb hmatch
    rw [isDLblForPoint] at hmatch
    simp at hmatch
    rcases hmatch with ⟨_, d, hd, hdt, hdv⟩
    have := hval b hb d hd hdt i hdv
    exact absurd this (not_le.mpr hneg)
  have hfind : (s.children.filter (isDLblForPoint i)).head? = none := by
    rw [List.filter_eq_nil_iff.mpr hnomatch]; rfl
  rw [getOrAdd_of_not_found hfind,
    insert_seq_of_new_error (newDLblForIdx_of_neg hneg)]

/-- C5 witness: index −1 on a one-label collection. -/
theorem negative_index_rejected_witness :
    (-1 : Int) < 0 ∧
    (∀ c ∈ (mkState [1]).children, ∀ d ∈ c.children, d.tag = "c:idx" →
      ∀ v, d.val = some v → 0 ≤ v) ∧
    CT_DLbls.get_or_add_dLbl_for_point (-1) (mkState [1]) =
      .error .invalidArgument :=
  ⟨by decide, by decide,
   negative_index_rejected (-1) (mkState [1]) (by decide) (by decide)⟩

/-! ## Claim C6: rich-text override is exclusive -/

theorem head?_some_mem {α : Type} {l : List α} {a : α}
    (h : l.head? = some a) : a ∈ l := by
  cases l with
  | nil => exact absurd h (by simp)
  | cons x xs =>
    have hx : x = a := by simpa using h
    rw [← hx]
    exact List.mem_cons_self x xs

theorem filter_head?_prop {p : Elem → Bool} {l : List Elem} {a : Elem}
    (h : (l.filter p).head? = some a) : p a = true :=
  (List.mem_filter.mp (head?_some_mem h)).2

theorem Elem.tag_withChildren (s : Elem) (cs : List Elem) :
    (s.withChildren cs).tag = s.tag := by
  cases s; rfl

theorem tx_get_or_add_rich_tag (tx : Elem) :
    (tx_get_or_add_rich tx).tag = tx.tag := by
  rw [tx_get_or_add_rich]
  split
  · rfl
  · exact Elem.tag_withChildren tx _

theorem tx_remove_strRef_tag (tx : Elem) :
    (tx_remove_strRef tx).tag = tx.tag :=
  Elem.tag_withChildren tx _

theorem strRef_count_after_ops (tx : Elem) :
    (tx_get_or_add_rich (tx_remove_strRef tx)).children.countP
      (fun c => c.tag = "c:strRef") = 0 := by
  have hbase : (tx_remove_strRef tx).children.countP
      (fun c => c.tag = "c:strRef") = 0 := by
    rw [List.countP_eq_zero]
    intro b hb
    rw [tx_remove_strRef, Elem.children_withChildren] at hb
    have h2 := (List.mem_filter.mp hb).2
    simpa using h2
  rw [tx_get_or_add_rich]
  split
  · exact hbase
  · rw [Elem.children_withChildren, List.countP_append, hbase]
    rfl

theorem rich_count_remove_strRef (tx : Elem) :
    (tx_remove_strRef tx).children.countP (fun c => c.tag = "c:rich") =
      tx.children.countP (fun c => c.tag = "c:rich") := by
  rw [tx_remove_strRef, Elem.children_withChildren, List.countP_filter]
  apply List.countP_congr
  intro a _
  by_cases h : a.tag = "c:rich"
  · have : ¬(a.tag = "c:strRef") := by rw [h]; decide
    simp [h, this]
  · simp [h]

theorem rich_count_after_ops {tx : Elem}
    (h : tx.children.countP (fun c => c.tag = "c:rich") ≤ 1) :
    (tx_get_or_add_rich (tx_remove_strRef tx)).children.countP
      (fun c => c.tag = "c:rich") = 1 := by
  have hbase := rich_count_remove_strRef tx
  rw [tx_get_or_add_rich]
  split
  · rename_i hany
    have hpos : 0 < (tx_remove_strRef tx).children.countP
        (fun c => c.tag = "c:rich") := by
      rcases List.any_eq_true.mp hany with ⟨b, hb, hbt⟩
      exact List.countP_pos_iff.mpr ⟨b, hb, hbt⟩
    omega
  · rename_i hany
    have hzero : (tx_remove_strRef tx).children.countP
        (fun c => c.tag = "c:rich") = 0 := by
      rw [List.countP_eq_zero]
      intro b hb hbt
      exact hany (List.any_eq_true.mpr ⟨b, hb, hbt⟩)
    rw [Elem.children_withChildren, List.countP_append, hzero]
    rfl

theorem filter_replaceFirst_head {p : Elem → Bool} {new : Elem}
    (hnew : p new = true) :
    ∀ {cs : List Elem} {tx : Elem}, (cs.filter p).head? = some tx →
      ((replaceFirst p new cs).filter p).head? = some new := by
  intro cs
  induction cs with
  | nil => intro tx h; exact absurd h (by simp)
  | cons c rest ih =>
    intro tx h
    by_cases hc : p c = true
    · rw [replaceFirst, if_pos hc, List.filter_cons, if_pos hnew]
      rfl
    · have hc' : p c = false := Bool.eq_false_iff.mpr hc
      rw [List.filter_cons] at h
      rw [replaceFirst, if_neg hc, List.filter_cons]
      simp only [hc', Bool.false_eq_true, if_false] at h ⊢
      exact ih h

theorem filter_insertBFS_head {p : Elem → Bool} {new : Elem}
    {succs : List String} (hnew : p new = true) :
    ∀ {cs : List Elem}, (∀ b ∈ cs, p b = false) →
      ((insertBeforeFirstSuccessor succs new cs).filter p).head? = some new := by
  intro cs
  induction cs with
  | nil =>
    intro _
    rw [insertBeforeFirstSuccessor, List.filter_cons, if_pos hnew]
    rfl
  | cons c rest ih =>
    intro hall
    rw [insertBeforeFirstSuccessor]
    by_cases hc : succs.contains c.tag
    · rw [if_pos hc, List.filter_cons, if_pos hnew]
      rfl
    · rw [if_neg hc, List.filter_cons]
      have hcf : p c = false := hall c (List.mem_cons_self c rest)
      simp only [hcf, Bool.false_eq_true, if_false]
      exact ih (fun b hb => hall b (List.mem_cons_of_mem c hb))

/-- C6: after `get_or_add_tx_rich` on any data label whose `c:tx` slot
holds at most one `c:rich` child (every schema-valid state), the returned
`c:tx` slot has zero `c:strRef` children and exactly one `c:rich` child,
and it is the `c:tx` child of the updated element. -/
theorem tx_rich_mutual_exclusion (dLbl tx' d' : Elem)
    (hrich : richCountOfFirstTx dLbl ≤ 1)
    (hcall : CT_DLbl.get_or_add_tx_rich dLbl = (tx', d')) :
    tx'.children.countP (fun c => c.tag = "c:strRef") = 0 ∧
    tx'.children.countP (fun c => c.tag = "c:rich") = 1 ∧
    (d'.children.filter (fun c => c.tag = "c:tx")).head? = some tx' := by
  cases hfind : (dLbl.children.filter (fun c => c.tag = "c:tx")).head? with
  | some tx =>
    simp only [CT_DLbl.get_or_add_tx_rich, hfind] at hcall
    have htx' : tx_get_or_add_rich (tx_remove_strRef tx) = tx' ∧
        dLbl.withChildren (replaceFirst (fun c => c.tag = "c:tx") tx'
          dLbl.children) = d' := by
      rcases Prod.mk.injEq .. ▸ hcall with ⟨h1, h2⟩
      exact ⟨h1, h1 ▸ h2⟩
    rcases htx' with ⟨h1, h2⟩
    rw [richCountOfFirstTx, hfind] at hrich
    have htag : tx'.tag = "c:tx" := by
      rw [← h1, tx_get_or_add_rich_tag, tx_remove_strRef_tag]
      simpa using filter_head?_prop hfind
    refine ⟨h1 ▸ strRef_count_after_ops tx, h1 ▸ rich_count_after_ops hrich, ?_⟩
    rw [← h2, Elem.children_withChildren]
    exact filter_replaceFirst_head (by simpa using htag) hfind
  | none =>
    simp only [CT_DLbl.get_or_add_tx_rich, hfind] at hcall
    have htx' : tx_get_or_add_rich (tx_remove_strRef (.mk "c:tx" none [])) = tx' ∧
        dLbl.withChildren (insertBeforeFirstSuccessor CT_DLbl.tx_successors tx'
          dLbl.children) = d' := by
      rcases Prod.mk.injEq .. ▸ hcall with ⟨h1, h2⟩
      exact ⟨h1, h1 ▸ h2⟩
    rcases htx' with ⟨h1, h2⟩
    have hval : tx' = Elem.mk "c:tx" none [Elem.mk "c:rich" none []] := by
      rw [← h1]; rfl
    have hnotx : ∀ b ∈ dLbl.children, (fun c => decide (c.tag = "c:tx")) b = false := by
      have hnil : dLbl.children.filter (fun c => c.tag = "c:tx") = [] :=
        List.head?_eq_none_iff.mp hfind
      intro b hb
      have := List.filter_eq_nil_iff.mp hnil b hb
      simpa using this
    refine ⟨by rw [hval]; rfl, by rw [hval]; rfl, ?_⟩
    rw [← h2, Elem.children_withChildren]
    exact filter_insertBFS_head (by rw [hval]; rfl) hnotx

/-- C6 witness: a data label whose `c:tx` slot holds a `c:strRef`
reference variant. -/
theorem tx_rich_mutual_exclusion_witness :
    richCountOfFirstTx (Elem.mk "c:dLbl" none
      [Elem.mk "c:idx" (some 0) [],
       Elem.mk "c:tx" none [Elem.mk "c:strRef" none []]]) ≤ 1 ∧
    ((Elem.mk "c:tx" none [Elem.mk "c:rich" none []]).children.countP
        (fun c => c.tag = "c:strRef") = 0 ∧
     (Elem.mk "c:tx" none [Elem.mk "c:rich" none []]).children.countP
        (fun c => c.tag = "c:rich") = 1 ∧
     ((Elem.mk "c:dLbl" none
        [Elem.mk "c:idx" (some 0) [],
         Elem.mk "c:tx" none [Elem.mk "c:rich" none []]]).children.filter
        (fun c => c.tag = "c:tx")).head? =
       some (Elem.mk "c:tx" none [Elem.mk "c:rich" none []])) :=
  ⟨by decide,
   tx_rich_mutual_exclusion
     (Elem.mk "c:dLbl" none
       [Elem.mk "c:idx" (some 0) [],
        Elem.mk "c:tx" none [Elem.mk "c:strRef" none []]])
     (Elem.mk "c:tx" none [Elem.mk "c:rich" none []])
     (Elem.mk "c:dLbl" none
       [Elem.mk "c:idx" (some 0) [],
        Elem.mk "c:tx" none [Elem.mk "c:rich" none []]])
     (by decide) rfl⟩

/-! ## Claim C9: removing the rich-text override -/

theorem removeFirst_of_split {p : Elem → Bool} {c : Elem} {r : List Elem}
    (hc : p c = true) :
    ∀ {l : List Elem}, (∀ b ∈ l, p b = false) →
      removeFirst p (l ++ c :: r) = l ++ r := by
  intro l
  induction l with
  | nil =>
    intro _
    rw [List.nil_append, removeFirst, if_pos hc, List.nil_append]
  | cons x xs ih =>
    intro hall
    have hx : ¬(p x = true) := by
      rw [hall x (List.mem_cons_self x xs)]
      simp
    rw [List.cons_append, removeFirst, if_neg hx,
      ih (fun b hb => hall b (List.mem_cons_of_mem x hb)), List.cons_append]

/-- C9: `remove_tx_rich` on a data label with no `c:tx[c:rich]` child
returns the element unchanged (same children, same order); when such a
child is present, exactly the first one is detached and all other children
stay in place. -/
theorem remove_tx_rich_behaviour (s : Elem) :
    ((∀ b ∈ s.children, isTxRich b = false) → CT_DLbl.remove_tx_rich s = s) ∧
    (∀ l c r, s.children = l ++ c :: r → isTxRich c = true →
      (∀ b ∈ l, isTxRich b = false) →
      CT_DLbl.remove_tx_rich s = s.withChildren (l ++ r)) := by
  constructor
  · intro hall
    rw [CT_DLbl.remove_tx_rich, if_neg]
    rw [Bool.not_eq_true, List.any_eq_false]
    intro b hb
    rw [hall b hb]
    simp
  · intro l c r hsplit hc hall
    have hany : s.children.any isTxRich = true := by
      rw [hsplit]
      exact List.any_eq_true.mpr ⟨c, by simp, hc⟩
    rw [CT_DLbl.remove_tx_rich, if_pos hany, hsplit, removeFirst_of_split hc hall]

/-- C9 witness: the no-op case on a label without rich text, and the
removal case on a label whose first `c:tx` child carries `c:rich`. -/
theorem remove_tx_rich_behaviour_witness :
    CT_DLbl.remove_tx_rich (Elem.mk "c:dLbl" none
      [Elem.mk "c:idx" (some 0) [], Elem.mk "c:spPr" none []]) =
      Elem.mk "c:dLbl" none
        [Elem.mk "c:idx" (some 0) [], Elem.mk "c:spPr" none []] ∧
    CT_DLbl.remove_tx_rich (Elem.mk "c:dLbl" none
      [Elem.mk "c:idx" (some 0) [],
       Elem.mk "c:tx" none [Elem.mk "c:rich" none []],
       Elem.mk "c:spPr" none []]) =
      (Elem.mk "c:dLbl" none
        [Elem.mk "c:idx" (some 0) [],
         Elem.mk "c:tx" none [Elem.mk "c:rich" none []],
         Elem.mk "c:spPr" none []]).withChildren
        [Elem.mk "c:idx" (some 0) [], Elem.mk "c:spPr" none []] :=
  ⟨(remove_tx_rich_behaviour _).1 (by decide),
   (remove_tx_rich_behaviour _).2
     [Elem.mk "c:idx" (some 0) []]
     (Elem.mk "c:tx" none [Elem.mk "c:rich" none []])
     [Elem.mk "c:spPr" none []] rfl (by decide) (by decide)⟩

/-! ## Claim C10: point lookup is a pure first-match query -/

theorem filter_head?_some_decomp {p : Elem → Bool} :
    ∀ {cs : List Elem} {m : Elem}, (cs.filter p).head? = some m →
      ∃ l r, cs = l ++ m :: r ∧ p m = true ∧ ∀ b ∈ l, p b = false := by
  intro cs
  induction cs with
  | nil => intro m h; exact absurd h (by simp)
  | cons c rest ih =>
    intro m h
    rw [List.filter_cons] at h
    by_cases hc : p c = true
    · rw [if_pos hc] at h
      have hcm : c = m := by simpa using h
      exact ⟨[], rest, by rw [hcm]; rfl, hcm ▸ hc, by simp⟩
    · have hc' : p c = false := Bool.eq_false_iff.mpr hc
      simp only [hc', Bool.false_eq_true, if_false] at h
      rcases ih h with ⟨l, r, hsplit, hm, hall⟩
      refine ⟨c :: l, r, by rw [List.cons_append, hsplit], hm, ?_⟩
      intro b hb
      rcases List.mem_cons.mp hb with rfl | hbl
      · exact hc'
      · exact hall b hbl

/-- C10: `get_dLbl_for_point` never mutates the collection, and its result
is the first `c:dLbl` child whose `c:idx` value equals `i` — `none`
exactly when no child matches. -/
theorem get_dLbl_for_point_pure_lookup (i : Int) (s : Elem) :
    (CT_DLbls.get_dLbl_for_point i s).2 = s ∧
    (∀ m, (CT_DLbls.get_dLbl_for_point i s).1 = some m →
      ∃ l r, s.children = l ++ m :: r ∧ isDLblForPoint i m = true ∧
        ∀ b ∈ l, isDLblForPoint i b = false) ∧
    ((CT_DLbls.get_dLbl_for_point i s).1 = none →
      ∀ b ∈ s.children, isDLblForPoint i b = false) := by
  refine ⟨rfl, ?_, ?_⟩
  · intro m hm
    exact filter_head?_some_decomp hm
  · intro hnone b hb
    have hnil : s.children.filter (isDLblForPoint i) = [] :=
      List.head?_eq_none_iff.mp hnone
    have := List.filter_eq_nil_iff.mp hnil b hb
    simpa using this

/-- C10 witness: concrete lookups, one hit and one miss, both leaving the
collection untouched. -/
theorem get_dLbl_for_point_pure_lookup_witness :
    (CT_DLbls.get_dLbl_for_point 2 (mkState [1, 2, 3])).2 = mkState [1, 2, 3] ∧
    (CT_DLbls.get_dLbl_for_point 9 (mkState [1, 2, 3])).2 = mkState [1, 2, 3] ∧
    (∀ b ∈ (mkState [1, 2, 3]).children, isDLblForPoint 9 b = false) :=
  ⟨(get_dLbl_for_point_pure_lookup 2 (mkState [1, 2, 3])).1,
   (get_dLbl_for_point_pure_lookup 9 (mkState [1, 2, 3])).1,
   (get_dLbl_for_point_pure_lookup 9 (mkState [1, 2, 3])).2.2 rfl⟩
